import Mathlib

/-!
Verification of the `epsilon` forward-mode automatic-differentiation crate.

The crate's `make_dual!` macro generates, for a family of named axes over an
inner scalar type, a struct holding one real part and one derivative slot per
axis, together with constructors, extractors, arithmetic operators and
elementary functions. We embed the generated code shallowly:

* `Dual n S` is the generated struct: a real part and a function from the
  `n` axes (the named `eps_*` fields) to scalars.
* `ScalarOps S` bundles the operations the generated code invokes on the
  inner scalar type (`f64` in the source). Definitions are parameterized
  over an arbitrary `ScalarOps` instance, so structural facts (the product
  rule shape, `div` delegating to `invert`, ordering delegating to the
  scalar comparison) are proved for every scalar semantics, including
  IEEE-754 edge values. Facts that need real arithmetic (cancellations in
  the lifting laws, `powf 1`, trigonometry at zero) are proved at the
  instance `realOps`, which interprets the inner type as `ℝ` with
  `Real.rpow` for `powf`.

Each definition mirrors one item of the macro expansion in `src/lib.rs`;
operand order and association of the scalar operations follow the source.
-/

namespace Epsilon

/-- The scalar operations the generated code uses on the inner type. -/
structure ScalarOps (S : Type) where
  zero : S
  one : S
  add : S → S → S
  sub : S → S → S
  mul : S → S → S
  div : S → S → S
  neg : S → S
  powf : S → S → S
  sin : S → S
  cos : S → S
  pcmp : S → S → Option Ordering

/-- The generated dual struct: `real` plus one `eps` slot per axis. -/
structure Dual (n : Nat) (S : Type) where
  real : S
  eps : Fin n → S

variable {S T : Type} {n : Nat}

theorem dual_ext {a b : Dual n S} (hr : a.real = b.real)
    (he : ∀ i, a.eps i = b.eps i) : a = b := by
  cases a
  cases b
  cases hr
  have : _ = _ := funext he
  cases this
  rfl

/-- `impl From<$inner> for $name`: real part given, every slot `0.`. -/
def fromScalar (P : ScalarOps S) (real : S) : Dual n S :=
  { real := real, eps := fun _ => P.zero }

/-- `eps_$comp(real, eps)`: struct-update of `Self::from(real)` at one slot. -/
def epsAt (P : ScalarOps S) (i : Fin n) (real d : S) : Dual n S :=
  { (fromScalar P real : Dual n S) with
    eps := Function.update (fromScalar P real : Dual n S).eps i d }

/-- `$comp(real)`: `Self::eps_$comp(real, 1.)`. -/
def varAt (P : ScalarOps S) (i : Fin n) (real : S) : Dual n S :=
  epsAt P i real P.one

/-- `d_d$comp(self)`: returns the `eps_$comp` field. -/
def d_d (i : Fin n) (v : Dual n S) : S :=
  v.eps i

/-- `powf(self, pow)`: real `self.real.powf(pow)`, slot `i` becomes
`self.eps_i * pow * self.real.powf(pow - 1.)` (left-associated as in the source). -/
def powf (P : ScalarOps S) (v : Dual n S) (pow : S) : Dual n S :=
  { real := P.powf v.real pow
    eps := fun i => P.mul (P.mul (v.eps i) pow) (P.powf v.real (P.sub pow P.one)) }

/-- `invert(self)`: `self.powf(-1.)`. -/
def invert (P : ScalarOps S) (v : Dual n S) : Dual n S :=
  powf P v (P.neg P.one)

/-- `sin(self)`: real `self.real.sin()`, each slot multiplied by `self.real.cos()`. -/
def sin (P : ScalarOps S) (v : Dual n S) : Dual n S :=
  { real := P.sin v.real
    eps := fun i => P.mul (v.eps i) (P.cos v.real) }

/-- `cos(self)`: real `self.real.cos()`, each slot multiplied by `-self.real.sin()`. -/
def cos (P : ScalarOps S) (v : Dual n S) : Dual n S :=
  { real := P.cos v.real
    eps := fun i => P.mul (v.eps i) (P.neg (P.sin v.real)) }

/-- `impl Add<$inner>`: `self.real += other`, slots untouched. -/
def addScalar (P : ScalarOps S) (v : Dual n S) (s : S) : Dual n S :=
  { v with real := P.add v.real s }

/-- `impl Add<$name>`: real parts add, each slot adds. -/
def add (P : ScalarOps S) (u v : Dual n S) : Dual n S :=
  { real := P.add u.real v.real
    eps := fun i => P.add (u.eps i) (v.eps i) }

/-- `impl Mul<$inner>`: real and every slot multiplied by the scalar. -/
def mulScalar (P : ScalarOps S) (v : Dual n S) (s : S) : Dual n S :=
  { real := P.mul v.real s
    eps := fun i => P.mul (v.eps i) s }

/-- `impl Neg`: `self * -1.`. -/
def neg (P : ScalarOps S) (v : Dual n S) : Dual n S :=
  mulScalar P v (P.neg P.one)

/-- `impl Mul<$name>`: product rule, slot `i` is
`self.eps_i * other.real + other.eps_i * self.real`. -/
def mul (P : ScalarOps S) (u v : Dual n S) : Dual n S :=
  { real := P.mul u.real v.real
    eps := fun i => P.add (P.mul (u.eps i) v.real) (P.mul (v.eps i) u.real) }

/-- `impl Div<$name>`: `self * other.invert()`. -/
def div (P : ScalarOps S) (u v : Dual n S) : Dual n S :=
  mul P u (invert P v)

/-- `impl Sub<$inner>`: `self + -other` (scalar negation). -/
def subScalar (P : ScalarOps S) (v : Dual n S) (s : S) : Dual n S :=
  addScalar P v (P.neg s)

/-- `impl Sub<$name>`: `self + -other` (dual negation). -/
def sub (P : ScalarOps S) (u v : Dual n S) : Dual n S :=
  add P u (neg P v)

/-- `impl Div<f64>`: `self * (1./other)`. -/
def divScalar (P : ScalarOps S) (v : Dual n S) (s : S) : Dual n S :=
  mulScalar P v (P.div P.one s)

/-- `tan(self)`: `self.sin() / self.cos()`. -/
def tan (P : ScalarOps S) (v : Dual n S) : Dual n S :=
  div P (sin P v) (cos P v)

/-- `impl_reverse!{Add}`: `scalar + dual` is `From::from(scalar) + dual`. -/
def raddScalar (P : ScalarOps S) (s : S) (v : Dual n S) : Dual n S :=
  add P (fromScalar P s) v

/-- `impl_reverse!{Sub}`. -/
def rsubScalar (P : ScalarOps S) (s : S) (v : Dual n S) : Dual n S :=
  sub P (fromScalar P s) v

/-- `impl_reverse!{Mul}`. -/
def rmulScalar (P : ScalarOps S) (s : S) (v : Dual n S) : Dual n S :=
  mul P (fromScalar P s) v

/-- `impl_reverse!{Div}`. -/
def rdivScalar (P : ScalarOps S) (s : S) (v : Dual n S) : Dual n S :=
  div P (fromScalar P s) v

/-- `impl PartialOrd`: `self.real.partial_cmp(&other.real)`. -/
def pcmp (P : ScalarOps S) (u v : Dual n S) : Option Ordering :=
  P.pcmp u.real v.real

/-- `derive(PartialEq)`: field-by-field scalar equality, over the real model. -/
def dualEq (a b : Dual n ℝ) : Prop :=
  a.real = b.real ∧ ∀ i, a.eps i = b.eps i

/-- The inner type `f64` interpreted as `ℝ`: `powf` is `Real.rpow`, the
comparison is total. -/
noncomputable def realOps : ScalarOps ℝ where
  zero := 0
  one := 1
  add := fun a b => a + b
  sub := fun a b => a - b
  mul := fun a b => a * b
  div := fun a b => a / b
  neg := fun a => -a
  powf := fun a b => a ^ b
  sin := Real.sin
  cos := Real.cos
  pcmp := fun a b => some (compare a b)

/-- A computable scalar instance over `ℚ` (arbitrary interpretations for the
transcendental operations), used to evaluate the parametric theorems on
concrete inputs. -/
def ratOps : ScalarOps ℚ where
  zero := 0
  one := 1
  add := fun a b => a + b
  sub := fun a b => a - b
  mul := fun a b => a * b
  div := fun a b => a / b
  neg := fun a => -a
  powf := fun a b => a + b
  sin := fun a => a
  cos := fun a => a
  pcmp := fun a b => some (compare a b)

/-- A map of scalar interpretations commuting with every scalar operation the
generated code uses. Instantiating `S` freely (e.g. with a type of IEEE-754
bit patterns) and `f` with an interpretation shows the dual operations apply
the scalar operations uniformly: no branch inspects the values, so whatever
the scalar operations produce (not-a-number, infinity) lands in the result
unchanged. -/
def IsHom (P : ScalarOps S) (Q : ScalarOps T) (f : S → T) : Prop :=
  f P.zero = Q.zero ∧ f P.one = Q.one ∧
  (∀ a b, f (P.add a b) = Q.add (f a) (f b)) ∧
  (∀ a b, f (P.sub a b) = Q.sub (f a) (f b)) ∧
  (∀ a b, f (P.mul a b) = Q.mul (f a) (f b)) ∧
  (∀ a b, f (P.div a b) = Q.div (f a) (f b)) ∧
  (∀ a, f (P.neg a) = Q.neg (f a)) ∧
  (∀ a b, f (P.powf a b) = Q.powf (f a) (f b)) ∧
  (∀ a, f (P.sin a) = Q.sin (f a)) ∧
  (∀ a, f (P.cos a) = Q.cos (f a))

/-- Apply a scalar map to every field of a dual value. -/
def dmap (f : S → T) (v : Dual n S) : Dual n T :=
  { real := f v.real, eps := fun i => f (v.eps i) }

/-- Sample dual value over `ℚ`, used to evaluate parametric theorems. -/
def sampleV : Dual 1 ℚ :=
  epsAt ratOps 0 2 3

/-- Second sample dual value over `ℚ`. -/
def sampleW : Dual 1 ℚ :=
  varAt ratOps 0 4

end Epsilon

namespace Epsilon

variable {S T : Type} {n : Nat}

/-- C1: the product of two dual values of one family has real part
`u.real * v.real`, and derivative slot `i` equal to
`u.eps_i * v.real + v.eps_i * u.real`, built from the operands' own (hence
pre-operation) real parts. Proved for every scalar interpretation. -/
theorem mul_product_rule (P : ScalarOps S) (u v : Dual n S) :
    (mul P u v).real = P.mul u.real v.real ∧
    ∀ i, (mul P u v).eps i =
      P.add (P.mul (u.eps i) v.real) (P.mul (v.eps i) u.real) :=
  ⟨rfl, fun _ => rfl⟩

/-- C3: `a / b` is the very same value as `a * b.invert()` — the division
operator delegates to `invert`, so the two paths agree definitionally for
every scalar interpretation, in particular at zero, infinite or
not-a-number real parts of an IEEE-754 scalar. -/
theorem div_eq_mul_invert (P : ScalarOps S) (a b : Dual n S) :
    div P a b = mul P a (invert P b) :=
  rfl

/-- C7: comparing two dual values returns exactly the scalar comparison of
their real parts: derivative slots never enter (replacing them changes
nothing), and the result is `none` exactly when the scalar comparison of the
real parts is `none`. -/
theorem pcmp_by_real_only (P : ScalarOps S) (a b : Dual n S)
    (ea eb : Fin n → S) :
    pcmp P a b = P.pcmp a.real b.real ∧
    pcmp P { a with eps := ea } { b with eps := eb } = pcmp P a b ∧
    (pcmp P a b = none ↔ P.pcmp a.real b.real = none) :=
  ⟨rfl, rfl, Iff.rfl⟩

/-- C5: seeding a variable at axis `i` with value `v` puts `v` in the real
part, the scalar one in slot `i`, and the scalar zero in every other slot,
as read back by the derivative extractor. -/
theorem varAt_extract (P : ScalarOps S) (i j : Fin n) (v : S) (h : j ≠ i) :
    (varAt P i v).real = v ∧
    d_d i (varAt P i v) = P.one ∧
    d_d j (varAt P i v) = P.zero := by
  refine ⟨rfl, ?_, ?_⟩
  · simp [d_d, varAt, epsAt, fromScalar]
  · simp [d_d, varAt, epsAt, fromScalar, Function.update_apply, h]

theorem varAt_extract_witness :
    ((1 : Fin 2) ≠ 0) ∧
    ((varAt ratOps (0 : Fin 2) 5).real = 5 ∧
      d_d 0 (varAt ratOps (0 : Fin 2) 5) = ratOps.one ∧
      d_d 1 (varAt ratOps (0 : Fin 2) 5) = ratOps.zero) :=
  ⟨by decide, varAt_extract ratOps 0 1 5 (by decide)⟩

/-- C6: the explicit-derivative constructor starts from the all-zero
constant of the family, so the result holds the given real part, the given
derivative in the named slot, and the scalar zero everywhere else; no slot
of any pre-existing instance is carried over. -/
theorem epsAt_fresh (P : ScalarOps S) (i j : Fin n) (r d : S) (h : j ≠ i) :
    (epsAt P i r d).real = r ∧
    (epsAt P i r d).eps i = d ∧
    (epsAt P i r d).eps j = P.zero := by
  refine ⟨rfl, ?_, ?_⟩
  · simp [epsAt, fromScalar]
  · simp [epsAt, fromScalar, Function.update_apply, h]

theorem epsAt_fresh_witness :
    ((1 : Fin 3) ≠ 0) ∧
    ((epsAt ratOps (0 : Fin 3) 7 9).real = 7 ∧
      (epsAt ratOps (0 : Fin 3) 7 9).eps 0 = 9 ∧
      (epsAt ratOps (0 : Fin 3) 7 9).eps 1 = ratOps.zero) :=
  ⟨by decide, epsAt_fresh ratOps 0 1 7 9 (by decide)⟩

/-- C10: equality compares every field while ordering compares real parts
only, so two dual values with equal real parts and different derivative
slots compare as `some Ordering.eq` although they are not equal. -/
theorem pcmp_eq_but_ne :
    ∃ a b : Dual 3 ℝ,
      pcmp realOps a b = some Ordering.eq ∧ ¬ dualEq a b := by
  refine ⟨epsAt realOps 0 0 1, fromScalar realOps 0, ?_, ?_⟩
  · show some (compare (epsAt realOps (0 : Fin 3) 0 1).real
      (fromScalar realOps 0 : Dual 3 ℝ).real) = some Ordering.eq
    have h1 : (epsAt realOps (0 : Fin 3) 0 1).real = 0 := rfl
    have h2 : (fromScalar realOps 0 : Dual 3 ℝ).real = 0 := rfl
    rw [h1, h2]
    have h3 : compare (0 : ℝ) 0 = Ordering.eq := compare_eq_iff_eq.mpr rfl
    rw [h3]
  · rintro ⟨-, he⟩
    have h0 := he 0
    simp [epsAt, fromScalar, realOps] at h0

/-- C2: over the real interpretation of the inner scalar, each of the four
operators between a dual value and a bare scalar, in both operand orders,
returns exactly what lifting the scalar to the constant dual value of the
family (real part the scalar, every slot zero) and applying the dual-dual
rule returns. -/
theorem scalar_ops_lift (v : Dual n ℝ) (s : ℝ) :
    addScalar realOps v s = add realOps v (fromScalar realOps s) ∧
    subScalar realOps v s = sub realOps v (fromScalar realOps s) ∧
    mulScalar realOps v s = mul realOps v (fromScalar realOps s) ∧
    divScalar realOps v s = div realOps v (fromScalar realOps s) ∧
    raddScalar realOps s v = add realOps (fromScalar realOps s) v ∧
    rsubScalar realOps s v = sub realOps (fromScalar realOps s) v ∧
    rmulScalar realOps s v = mul realOps (fromScalar realOps s) v ∧
    rdivScalar realOps s v = div realOps (fromScalar realOps s) v := by
  refine ⟨?_, ?_, ?_, ?_, rfl, rfl, rfl, rfl⟩
  · exact dual_ext rfl fun i => by
      simp [addScalar, add, fromScalar, realOps]
  · refine dual_ext ?_ fun i => ?_ <;>
      simp [subScalar, addScalar, sub, add, neg, mulScalar, fromScalar, realOps]
  · exact dual_ext rfl fun i => by
      simp [mulScalar, mul, fromScalar, realOps]
  · refine dual_ext ?_ fun i => ?_ <;>
      simp [divScalar, mulScalar, div, mul, invert, powf, fromScalar, realOps,
        Real.rpow_neg_one, one_div]

/-- C4: raising a dual value to the power one reproduces it: the real part
is unchanged and each derivative slot is multiplied by
`1 * real ^ (1 - 1) = 1`. -/
theorem powf_one_id (v : Dual n ℝ) : powf realOps v 1 = v := by
  refine dual_ext ?_ fun i => ?_ <;>
    simp [powf, realOps]

/-- C8: for the seeded variable at real part zero, `sin` has real part `0`
and derivative `1` at its axis, `cos` has real part `1` and derivative `0`,
and `tan` (recomposed as `sin / cos`) has real part `0` and derivative `1`. -/
theorem trig_at_zero (i : Fin n) :
    (sin realOps (varAt realOps i 0)).real = 0 ∧
    d_d i (sin realOps (varAt realOps i 0)) = 1 ∧
    (cos realOps (varAt realOps i 0)).real = 1 ∧
    d_d i (cos realOps (varAt realOps i 0)) = 0 ∧
    (tan realOps (varAt realOps i 0)).real = 0 ∧
    d_d i (tan realOps (varAt realOps i 0)) = 1 := by
  refine ⟨?_, ?_, ?_, ?_, ?_, ?_⟩ <;>
    simp [tan, div, mul, invert, powf, sin, cos, varAt, epsAt, fromScalar,
      d_d, realOps]

/-- C9: every operation of the kernel is a total function applied uniformly:
it commutes with any reinterpretation of the scalars that commutes with the
scalar operations. No operation branches on its inputs, so scalar results
such as not-a-number or infinity pass into the real part and the derivative
slots of the result exactly as the scalar operations produce them. -/
theorem ops_uniform (P : ScalarOps S) (Q : ScalarOps T) (f : S → T)
    (h : IsHom P Q f) (v w : Dual n S) (p : S) :
    dmap f (powf P v p) = powf Q (dmap f v) (f p) ∧
    dmap f (invert P v) = invert Q (dmap f v) ∧
    dmap f (sin P v) = sin Q (dmap f v) ∧
    dmap f (cos P v) = cos Q (dmap f v) ∧
    dmap f (tan P v) = tan Q (dmap f v) ∧
    dmap f (add P v w) = add Q (dmap f v) (dmap f w) ∧
    dmap f (sub P v w) = sub Q (dmap f v) (dmap f w) ∧
    dmap f (mul P v w) = mul Q (dmap f v) (dmap f w) ∧
    dmap f (div P v w) = div Q (dmap f v) (dmap f w) ∧
    dmap f (addScalar P v p) = addScalar Q (dmap f v) (f p) ∧
    dmap f (subScalar P v p) = subScalar Q (dmap f v) (f p) ∧
    dmap f (mulScalar P v p) = mulScalar Q (dmap f v) (f p) ∧
    dmap f (divScalar P v p) = divScalar Q (dmap f v) (f p) := by
  obtain ⟨h0, h1, hadd, hsub, hmul, hdiv, hneg, hpow, hsin, hcos⟩ := h
  have hPow : ∀ (u : Dual n S) (q : S),
      dmap f (powf P u q) = powf Q (dmap f u) (f q) := fun u q =>
    dual_ext (hpow _ _) fun i => by
      simp [dmap, powf, hmul, hpow, hsub, h1]
  have hInv : ∀ u : Dual n S, dmap f (invert P u) = invert Q (dmap f u) := by
    intro u
    have := hPow u (P.neg P.one)
    rwa [hneg, h1] at this
  have hSin : ∀ u : Dual n S, dmap f (sin P u) = sin Q (dmap f u) := fun u =>
    dual_ext (hsin _) fun i => by simp [dmap, sin, hmul, hcos]
  have hCos : ∀ u : Dual n S, dmap f (cos P u) = cos Q (dmap f u) := fun u =>
    dual_ext (hcos _) fun i => by simp [dmap, cos, hmul, hneg, hsin]
  have hAdd : ∀ u u' : Dual n S,
      dmap f (add P u u') = add Q (dmap f u) (dmap f u') := fun u u' =>
    dual_ext (hadd _ _) fun i => by simp [dmap, add, hadd]
  have hMulS : ∀ (u : Dual n S) (q : S),
      dmap f (mulScalar P u q) = mulScalar Q (dmap f u) (f q) := fun u q =>
    dual_ext (hmul _ _) fun i => by simp [dmap, mulScalar, hmul]
  have hNeg : ∀ u : Dual n S, dmap f (neg P u) = neg Q (dmap f u) := by
    intro u
    have := hMulS u (P.neg P.one)
    rwa [hneg, h1] at this
  have hSub : ∀ u u' : Dual n S,
      dmap f (sub P u u') = sub Q (dmap f u) (dmap f u') := by
    intro u u'
    show dmap f (add P u (neg P u')) = add Q (dmap f u) (neg Q (dmap f u'))
    rw [hAdd, hNeg]
  have hMul : ∀ u u' : Dual n S,
      dmap f (mul P u u') = mul Q (dmap f u) (dmap f u') := fun u u' =>
    dual_ext (hmul _ _) fun i => by simp [dmap, mul, hmul, hadd]
  have hDiv : ∀ u u' : Dual n S,
      dmap f (div P u u') = div Q (dmap f u) (dmap f u') := by
    intro u u'
    show dmap f (mul P u (invert P u')) = mul Q (dmap f u) (invert Q (dmap f u'))
    rw [hMul, hInv]
  have hTan : dmap f (tan P v) = tan Q (dmap f v) := by
    show dmap f (div P (sin P v) (cos P v)) =
      div Q (sin Q (dmap f v)) (cos Q (dmap f v))
    rw [hDiv, hSin, hCos]
  have hAddS : dmap f (addScalar P v p) = addScalar Q (dmap f v) (f p) :=
    dual_ext (hadd _ _) fun i => by simp [dmap, addScalar]
  have hSubS : dmap f (subScalar P v p) = subScalar Q (dmap f v) (f p) := by
    show dmap f (addScalar P v (P.neg p)) =
      addScalar Q (dmap f v) (Q.neg (f p))
    rw [← hneg]
    exact dual_ext (hadd _ _) fun i => by simp [dmap, addScalar]
  have hDivS : dmap f (divScalar P v p) = divScalar Q (dmap f v) (f p) := by
    show dmap f (mulScalar P v (P.div P.one p)) =
      mulScalar Q (dmap f v) (Q.div Q.one (f p))
    rw [← h1, ← hdiv]
    exact hMulS v (P.div P.one p)
  exact ⟨hPow v p, hInv v, hSin v, hCos v, hTan, hAdd v w, hSub v w,
    hMul v w, hDiv v w, hAddS, hSubS, hMulS v p, hDivS⟩

theorem ops_uniform_witness :
    IsHom ratOps ratOps (fun a : ℚ => a) ∧
    (dmap (fun a : ℚ => a) (powf ratOps sampleV 5) =
        powf ratOps (dmap (fun a : ℚ => a) sampleV) ((fun a : ℚ => a) 5) ∧
      dmap (fun a : ℚ => a) (invert ratOps sampleV) =
        invert ratOps (dmap (fun a : ℚ => a) sampleV) ∧
      dmap (fun a : ℚ => a) (sin ratOps sampleV) =
        sin ratOps (dmap (fun a : ℚ => a) sampleV) ∧
      dmap (fun a : ℚ => a) (cos ratOps sampleV) =
        cos ratOps (dmap (fun a : ℚ => a) sampleV) ∧
      dmap (fun a : ℚ => a) (tan ratOps sampleV) =
        tan ratOps (dmap (fun a : ℚ => a) sampleV) ∧
      dmap (fun a : ℚ => a) (add ratOps sampleV sampleW) =
        add ratOps (dmap (fun a : ℚ => a) sampleV) (dmap (fun a : ℚ => a) sampleW) ∧
      dmap (fun a : ℚ => a) (sub ratOps sampleV sampleW) =
        sub ratOps (dmap (fun a : ℚ => a) sampleV) (dmap (fun a : ℚ => a) sampleW) ∧
      dmap (fun a : ℚ => a) (mul ratOps sampleV sampleW) =
        mul ratOps (dmap (fun a : ℚ => a) sampleV) (dmap (fun a : ℚ => a) sampleW) ∧
      dmap (fun a : ℚ => a) (div ratOps sampleV sampleW) =
        div ratOps (dmap (fun a : ℚ => a) sampleV) (dmap (fun a : ℚ => a) sampleW) ∧
      dmap (fun a : ℚ => a) (addScalar ratOps sampleV 5) =
        addScalar ratOps (dmap (fun a : ℚ => a) sampleV) ((fun a : ℚ => a) 5) ∧
      dmap (fun a : ℚ => a) (subScalar ratOps sampleV 5) =
        subScalar ratOps (dmap (fun a : ℚ => a) sampleV) ((fun a : ℚ => a) 5) ∧
      dmap (fun a : ℚ => a) (mulScalar ratOps sampleV 5) =
        mulScalar ratOps (dmap (fun a : ℚ => a) sampleV) ((fun a : ℚ => a) 5) ∧
      dmap (fun a : ℚ => a) (divScalar ratOps sampleV 5) =
        divScalar ratOps (dmap (fun a : ℚ => a) sampleV) ((fun a : ℚ => a) 5)) :=
  have hh : IsHom ratOps ratOps (fun a : ℚ => a) :=
    ⟨rfl, rfl, fun _ _ => rfl, fun _ _ => rfl, fun _ _ => rfl, fun _ _ => rfl,
      fun _ => rfl, fun _ _ => rfl, fun _ => rfl, fun _ => rfl⟩
  ⟨hh, ops_uniform ratOps ratOps (fun a : ℚ => a) hh sampleV sampleW 5⟩

end Epsilon
